import Mathlib

/-!
Shallow embedding of the eviction-cache service (`cache-service/main.py`) of the
request-routing pipeline, together with proofs of its specified properties.

Modelling conventions:
* Python `dict` / `OrderedDict` → association list (`List (κ × α)`) in insertion
  order; updating an existing key rewrites it in place, inserting a new key
  appends at the end, deleting removes it (exactly Python's insertion-order
  semantics).
* Python `set` → `List Key`, insertion-ordered; `next(iter(s))` is the head.
  The spec treats the iteration order of LFU frequency buckets as an accepted
  non-determinism; every concrete trace proved below only ever picks from a
  singleton bucket, where all orders agree.
* Python `deque` → `List Key` (append at the tail, popleft at the head).
* `time.time()` → an explicit `now : ℚ` argument (the injectable clock of §8).
* Operations that can raise a Python runtime error (`KeyError`,
  `StopIteration`, `IndexError`) return `Option`; `none` is "raised".
* The opaque payload (`value`) is modelled as `Nat`; the engine never inspects
  it.
-/

abbrev Key := String

abbrev Val := Nat

/-- Lookup in a Python dict modelled as an association list (`d[k]` / `d.get(k)`). -/
def dget? {κ α : Type} [DecidableEq κ] : List (κ × α) → κ → Option α
  | [], _ => none
  | (k', v) :: t, k => if k' = k then some v else dget? t k

/-- Membership test (`k in d`). -/
def dmem {κ α : Type} [DecidableEq κ] (l : List (κ × α)) (k : κ) : Bool :=
  (dget? l k).isSome

/-- Assignment `d[k] = v`: rewrite in place when the key is present, otherwise
append at the end (Python dicts preserve insertion order). -/
def dinsert {κ α : Type} [DecidableEq κ] : List (κ × α) → κ → α → List (κ × α)
  | [], k, v => [(k, v)]
  | (k', v') :: t, k, v => if k' = k then (k, v) :: t else (k', v') :: dinsert t k v

/-- Deletion `del d[k]` (taking a present key to the list without it; on an
absent key it is the identity, callers guard exactly where the source does). -/
def ddel {κ α : Type} [DecidableEq κ] : List (κ × α) → κ → List (κ × α)
  | [], _ => []
  | (k', v) :: t, k => if k' = k then ddel t k else (k', v) :: ddel t k

/-- Removal of one element from a Python `set` or `deque`
(`s.remove(k)` / `dq.remove(k)`); callers guard presence where the source does. -/
def serase {κ : Type} [DecidableEq κ] : List κ → κ → List κ
  | [], _ => []
  | k' :: t, k => if k' = k then t else k' :: serase t k

/-- Insertion into a Python `set` (`s.add(k)`): no-op when present, else append. -/
def setAdd {κ : Type} [DecidableEq κ] (l : List κ) (k : κ) : List κ :=
  if k ∈ l then l else l ++ [k]

/-- Python `str.upper()`, characterwise (all policy tags are ASCII). -/
def pyUpper (s : String) : String := ⟨s.data.map Char.toUpper⟩

/-- The state of `CacheManager` (cache-service/main.py, lines 17-180).  The
Python object creates only the fields of its configured policy; here the unused
per-policy fields simply stay at their empty initial value.  The `stats` dict
is flattened into four counters. -/
structure CacheManager where
  size : Int
  policy : String
  ttl : ℚ
  stats_hits : Nat
  stats_misses : Nat
  stats_evictions : Nat
  stats_expirations : Nat
  timestamps : List (Key × ℚ)
  cache : List (Key × Val)
  insertion_order : List Key
  frequencies : List (Key × Nat)
  freq_groups : List (Nat × List Key)
  min_freq : Nat
deriving DecidableEq

/-- Constructor `CacheManager.__init__` (lines 18-36): upper-cases the policy
tag and raises `ValueError` when it is not LRU/FIFO/LFU.  Capacity (`size`) and
`ttl` are stored without any validation. -/
def CacheManager.make (size : Int) (policy : String) (ttl : ℚ) :
    Except String CacheManager :=
  let p := pyUpper policy
  if p = "LRU" ∨ p = "FIFO" ∨ p = "LFU" then
    Except.ok
      { size := size, policy := p, ttl := ttl,
        stats_hits := 0, stats_misses := 0, stats_evictions := 0,
        stats_expirations := 0, timestamps := [], cache := [],
        insertion_order := [], frequencies := [], freq_groups := [],
        min_freq := 0 }
  else
    Except.error "unsupported cache policy"

/-- Method `_is_expired` (lines 38-47). -/
def CacheManager.is_expired (self : CacheManager) (now : ℚ) (key : Key) : Bool :=
  if self.ttl = 0 then false
  else
    match dget? self.timestamps key with
    | none => true
    | some t0 => decide (now - t0 > self.ttl)

/-- Method `_remove_expired` (lines 49-69).  The source guards every deletion
with a membership test; `ddel`/`serase` are the identity on absent keys, which
is exactly that guarded behaviour. -/
def CacheManager.remove_expired (self : CacheManager) (key : Key) : CacheManager :=
  let s1 := { self with cache := ddel self.cache key,
                        timestamps := ddel self.timestamps key }
  let s2 :=
    if s1.policy = "FIFO" then
      { s1 with insertion_order := serase s1.insertion_order key }
    else if s1.policy = "LFU" then
      match dget? s1.frequencies key with
      | none => s1
      | some freq =>
        match dget? s1.freq_groups freq with
        | none => { s1 with frequencies := ddel s1.frequencies key }
        | some grp =>
          if key ∈ grp then
            let grp' := serase grp key
            let groups' :=
              if grp' = [] then ddel s1.freq_groups freq
              else dinsert s1.freq_groups freq grp'
            { s1 with freq_groups := groups', frequencies := ddel s1.frequencies key }
          else { s1 with frequencies := ddel s1.frequencies key }
    else s1
  { s2 with stats_expirations := s2.stats_expirations + 1 }

/-- Method `_increment_frequency` (lines 150-163), LFU only.  `none` models the
`KeyError` raised when the key has no frequency entry or is missing from its
frequency bucket. -/
def CacheManager.increment_frequency (self : CacheManager) (key : Key) :
    Option CacheManager :=
  match dget? self.frequencies key with
  | none => none
  | some old_freq =>
    match dget? self.freq_groups old_freq with
    | none => none
    | some grp =>
      if key ∈ grp then
        let new_freq := old_freq + 1
        let grp' := serase grp key
        let min' :=
          if grp' = [] ∧ old_freq = self.min_freq then self.min_freq + 1
          else self.min_freq
        let groups1 := dinsert self.freq_groups old_freq grp'
        let groups2 :=
          match dget? groups1 new_freq with
          | none => dinsert groups1 new_freq [key]
          | some g => dinsert groups1 new_freq (setAdd g key)
        some { self with frequencies := dinsert self.frequencies key new_freq,
                         freq_groups := groups2, min_freq := min' }
      else none

/-- Helper for `OrderedDict.move_to_end(key)`: detach the entry and re-append
it at the most-recently-used end; `none` models the `KeyError` on an absent key. -/
def moveToEnd (l : List (Key × Val)) (key : Key) : Option (List (Key × Val)) :=
  match dget? l key with
  | none => none
  | some v => some (ddel l key ++ [(key, v)])

/-- Method `_evict` (lines 127-148).  The eviction counter is incremented
before the policy dispatch, exactly as in the source.  In the LFU branch the
source reads the victim from the minimum-frequency bucket but never removes it
from that bucket; the guard `if not freq_groups[min_freq]: del ...` is
consequently dead code (the bucket still holds the victim), and is omitted as
such. -/
def CacheManager.evict (self : CacheManager) : Option CacheManager :=
  let s := { self with stats_evictions := self.stats_evictions + 1 }
  if s.policy = "LRU" then
    match s.cache with
    | [] => none
    | (k, _) :: rest =>
      some { s with cache := rest, timestamps := ddel s.timestamps k }
  else if s.policy = "FIFO" then
    match s.insertion_order with
    | [] => none
    | k :: rest =>
      if dmem s.cache k then
        some { s with insertion_order := rest, cache := ddel s.cache k,
                      timestamps := ddel s.timestamps k }
      else none
  else if s.policy = "LFU" then
    match dget? s.freq_groups s.min_freq with
    | none => none
    | some grp =>
      match grp with
      | [] => none
      | k :: _ =>
        if dmem s.frequencies k then
          if dmem s.cache k then
            some { s with frequencies := ddel s.frequencies k,
                          cache := ddel s.cache k,
                          timestamps := ddel s.timestamps k }
          else none
        else none
  else none

/-- Method `put` (lines 95-125). -/
def CacheManager.put (self : CacheManager) (now : ℚ) (key : Key) (value : Val) :
    Option CacheManager :=
  let s0 :=
    if dmem self.cache key && self.is_expired now key then self.remove_expired key
    else self
  if dmem s0.cache key then
    let s1 := { s0 with cache := dinsert s0.cache key value,
                        timestamps := dinsert s0.timestamps key now }
    if s1.policy = "LRU" then
      match moveToEnd s1.cache key with
      | none => none
      | some c => some { s1 with cache := c }
    else if s1.policy = "LFU" then s1.increment_frequency key
    else some s1
  else
    let step : Option CacheManager :=
      if (s0.cache.length : Int) ≥ s0.size then s0.evict else some s0
    match step with
    | none => none
    | some s1 =>
      let s2 := { s1 with cache := dinsert s1.cache key value,
                          timestamps := dinsert s1.timestamps key now }
      if s2.policy = "FIFO" then
        some { s2 with insertion_order := s2.insertion_order ++ [key] }
      else if s2.policy = "LFU" then
        let groups1 :=
          match dget? s2.freq_groups 1 with
          | none => dinsert s2.freq_groups 1 [key]
          | some g => dinsert s2.freq_groups 1 (setAdd g key)
        some { s2 with frequencies := dinsert s2.frequencies key 1,
                       freq_groups := groups1, min_freq := 1 }
      else some s2

/-- Method `get` (lines 71-93).  The outer `Option` is the runtime-error
channel; the inner `Option Val` is the documented value-or-absent result. -/
def CacheManager.get (self : CacheManager) (now : ℚ) (key : Key) :
    Option (Option Val × CacheManager) :=
  if dmem self.cache key then
    if self.is_expired now key then
      let s := self.remove_expired key
      some (none, { s with stats_misses := s.stats_misses + 1 })
    else
      let s := { self with stats_hits := self.stats_hits + 1 }
      let step : Option CacheManager :=
        if s.policy = "LRU" then
          match moveToEnd s.cache key with
          | none => none
          | some c => some { s with cache := c }
        else if s.policy = "LFU" then s.increment_frequency key
        else some s
      match step with
      | none => none
      | some s2 =>
        match dget? s2.cache key with
        | none => none
        | some v => some (some v, s2)
  else
    some (none, { self with stats_misses := self.stats_misses + 1 })

/-- Round-half-to-even to an integer, the rounding used by Python's `round`. -/
def roundHalfEven (q : ℚ) : ℤ :=
  if q - ⌊q⌋ < 1 / 2 then ⌊q⌋
  else if 1 / 2 < q - ⌊q⌋ then ⌊q⌋ + 1
  else if ⌊q⌋ % 2 = 0 then ⌊q⌋ else ⌊q⌋ + 1

/-- Python `round(x, 2)` on an exact rational. -/
def pyRound2 (q : ℚ) : ℚ := (roundHalfEven (q * 100) : ℚ) / 100

/-- The dictionary returned by `get_stats` (lines 165-180). -/
structure CacheStats where
  size : Nat
  capacity : Int
  policy : String
  ttl : ℚ
  hits : Nat
  misses : Nat
  evictions : Nat
  expirations : Nat
  hit_rate : ℚ
deriving DecidableEq

/-- Method `get_stats` (lines 165-180): `hit_rate` is the hit PERCENTAGE
`hits / total * 100`, rounded to two decimals, and `0` when no request was seen. -/
def CacheManager.get_stats (self : CacheManager) : CacheStats :=
  let total := self.stats_hits + self.stats_misses
  let hit_rate : ℚ :=
    if 0 < total then pyRound2 ((self.stats_hits : ℚ) / (total : ℚ) * 100) else 0
  { size := self.cache.length, capacity := self.size, policy := self.policy,
    ttl := self.ttl, hits := self.stats_hits, misses := self.stats_misses,
    evictions := self.stats_evictions, expirations := self.stats_expirations,
    hit_rate := hit_rate }

/-- One client operation against the cache, with its clock reading. -/
inductive Op where
  | get (now : ℚ) (key : Key)
  | put (now : ℚ) (key : Key) (value : Val)
deriving DecidableEq

/-- Execution of a sequence of operations; `none` as soon as one raises. -/
def run (cm : CacheManager) : List Op → Option CacheManager
  | [] => some cm
  | Op.get t k :: rest =>
    match cm.get t k with
    | none => none
    | some (_, cm') => run cm' rest
  | Op.put t k v :: rest =>
    match cm.put t k v with
    | none => none
    | some cm' => run cm' rest

/-- Number of `get` operations in a sequence. -/
def countGets : List Op → Nat
  | [] => 0
  | Op.get _ _ :: rest => countGets rest + 1
  | Op.put _ _ _ :: rest => countGets rest

/-- Outcome of the `/query` endpoint, by HTTP status. -/
inductive QueryResult where
  | hit (data : Val)
  | miss (data : Val)
  | clientError
  | unavailable
  | internalError
deriving DecidableEq

/-- Endpoint `handle_query` (lines 197-240).  `question = none` or the empty
string is the Python-falsy 400 path; `scorer` abstracts the boundary call to
the Score Service (`some data` = HTTP success with payload, `none` =
`RequestException`, answered with 503 and no `cache_put`).  A runtime error
inside the engine is caught by the blanket `except` and answered with 500. -/
def handle_query (cm : CacheManager) (now : ℚ) (question : Option String)
    (scorer : Option Val) : QueryResult × CacheManager :=
  match question with
  | none => (QueryResult.clientError, cm)
  | some q =>
    if q = "" then (QueryResult.clientError, cm)
    else
      match cm.get now q with
      | none => (QueryResult.internalError, cm)
      | some (some v, cm') => (QueryResult.hit v, cm')
      | some (none, cm') =>
        match scorer with
        | none => (QueryResult.unavailable, cm')
        | some data =>
          match cm'.put now q data with
          | some cm'' => (QueryResult.miss data, cm'')
          | none => (QueryResult.internalError, cm')

/-- Keys of an association list are pairwise distinct (true of every Python
dict; established below as an invariant of all reachable cache states). -/
def NodupKeys {κ α : Type} (l : List (κ × α)) : Prop :=
  (l.map Prod.fst).Nodup

/-- Consistency of the LFU bookkeeping for the LIVE keys: every key of the
entry mapping has a frequency entry and sits in the bucket of that frequency.
(The converse — buckets holding only live keys — is exactly what `_evict`
breaks.) -/
def LFUok (cm : CacheManager) : Prop :=
  cm.policy = "LFU" →
    ∀ k, dmem cm.cache k = true →
      ∃ f g, dget? cm.frequencies k = some f ∧
        dget? cm.freq_groups f = some g ∧ k ∈ g

/-- Inductive invariant of reachable cache states. -/
def ReachInv (cm : CacheManager) : Prop :=
  NodupKeys cm.cache ∧ LFUok cm ∧ (cm.cache.length : Int) ≤ max cm.size 0

/-- The state a fresh `CacheManager` starts in (all containers empty), as a
function of the already-normalized policy tag. -/
def initCM (size : Int) (policy : String) (ttl : ℚ) : CacheManager :=
  { size := size, policy := policy, ttl := ttl,
    stats_hits := 0, stats_misses := 0, stats_evictions := 0,
    stats_expirations := 0, timestamps := [], cache := [],
    insertion_order := [], frequencies := [], freq_groups := [],
    min_freq := 0 }

/-- Fresh LFU cache of capacity 1 (the witness of the `_evict` bucket bug). -/
def cmLFU1 : CacheManager := initCM 1 "LFU" 0

/-- Fresh LRU cache of capacity 10, no TTL. -/
def cmLRU10 : CacheManager := initCM 10 "LRU" 0

/-- Fresh LRU cache of capacity 10 with a 1-second TTL. -/
def cmTTL : CacheManager := initCM 10 "LRU" 1

/-- Fresh FIFO cache of capacity 1. -/
def cmFIFO1 : CacheManager := initCM 1 "FIFO" 0

/-- State of `cmFIFO1` after `put(0, "a", 1)`. -/
def cmFIFO1a : CacheManager :=
  { cmFIFO1 with cache := [("a", 1)], timestamps := [("a", 0)],
                 insertion_order := ["a"] }

/-- State of `cmLRU10` after `put(0, "a", 7)`. -/
def cmLRU10a : CacheManager :=
  { cmLRU10 with cache := [("a", 7)], timestamps := [("a", 0)] }

/-- State of `cmLRU10` after the trace miss("a"), put("a", 7), hit("a"). -/
def cmC6 : CacheManager :=
  { cmLRU10 with stats_hits := 1, stats_misses := 1, cache := [("a", 7)], timestamps := [("a", 0)] }

/-- State of `cmLRU10` after one missing `get`. -/
def cmLRU10m : CacheManager := { cmLRU10 with stats_misses := 1 }

/-- State of `cmTTL` after `put(0, "k", 5)`. -/
def cmTTLk : CacheManager :=
  { cmTTL with cache := [("k", 5)], timestamps := [("k", 0)] }

section DictLemmas

variable {κ α : Type} [DecidableEq κ]

theorem dmem_iff {l : List (κ × α)} {k : κ} :
    dmem l k = true ↔ ∃ v, dget? l k = some v := by
  simp [dmem, Option.isSome_iff_exists]

theorem dmem_eq_false_iff {l : List (κ × α)} {k : κ} :
    dmem l k = false ↔ dget? l k = none := by
  cases h : dget? l k <;> simp [dmem, h]

theorem dget?_dinsert_self (l : List (κ × α)) (k : κ) (v : α) :
    dget? (dinsert l k v) k = some v := by
  induction l with
  | nil => simp [dinsert, dget?]
  | cons p t ih =>
    obtain ⟨k1, v1⟩ := p
    by_cases h : k1 = k
    · simp [dinsert, h, dget?]
    · simp [dinsert, h, dget?, ih]

theorem dget?_dinsert_ne {k2 k : κ} (l : List (κ × α)) (v : α) (hne : k2 ≠ k) :
    dget? (dinsert l k v) k2 = dget? l k2 := by
  have hne' : ¬(k = k2) := fun e => hne e.symm
  induction l with
  | nil => simp [dinsert, dget?, hne']
  | cons p t ih =>
    obtain ⟨k1, v1⟩ := p
    by_cases h1 : k1 = k
    · subst h1
      simp [dinsert, dget?, hne']
    · by_cases h2 : k1 = k2
      · subst h2
        simp [dinsert, dget?, hne]
      · simp [dinsert, dget?, h1, h2, ih]

theorem dget?_ddel_self (l : List (κ × α)) (k : κ) :
    dget? (ddel l k) k = none := by
  induction l with
  | nil => simp [ddel, dget?]
  | cons p t ih =>
    obtain ⟨k1, v1⟩ := p
    by_cases h : k1 = k
    · simp [ddel, h, ih]
    · simp [ddel, dget?, h, ih]

theorem dget?_ddel_ne {k2 k : κ} (l : List (κ × α)) (hne : k2 ≠ k) :
    dget? (ddel l k) k2 = dget? l k2 := by
  induction l with
  | nil => simp [ddel]
  | cons p t ih =>
    obtain ⟨k1, v1⟩ := p
    by_cases h1 : k1 = k
    · subst h1
      have : ¬(k1 = k2) := fun e => hne e.symm
      simp [ddel, dget?, this, ih]
    · by_cases h2 : k1 = k2
      · subst h2
        simp [ddel, dget?, hne]
      · simp [ddel, dget?, h1, h2, ih]

theorem ddel_eq_of_none {l : List (κ × α)} {k : κ} (h : dget? l k = none) :
    ddel l k = l := by
  induction l with
  | nil => simp [ddel]
  | cons p t ih =>
    obtain ⟨k1, v1⟩ := p
    by_cases h1 : k1 = k
    · simp [dget?, h1] at h
    · simp [dget?, h1] at h
      simp [ddel, h1, ih h]

theorem dget?_append {l1 l2 : List (κ × α)} {k : κ} (h : dget? l1 k = none) :
    dget? (l1 ++ l2) k = dget? l2 k := by
  induction l1 with
  | nil => simp
  | cons p t ih =>
    obtain ⟨k1, v1⟩ := p
    by_cases h1 : k1 = k
    · simp [dget?, h1] at h
    · simp [dget?, h1] at h ⊢
      exact ih h

theorem length_dinsert_le (l : List (κ × α)) (k : κ) (v : α) :
    (dinsert l k v).length ≤ l.length + 1 := by
  induction l with
  | nil => simp [dinsert]
  | cons p t ih =>
    obtain ⟨k1, v1⟩ := p
    by_cases h : k1 = k <;> simp [dinsert, h] <;> omega

theorem length_dinsert_mem {l : List (κ × α)} {k : κ} (v : α) (h : dmem l k = true) :
    (dinsert l k v).length = l.length := by
  induction l with
  | nil => simp [dmem, dget?] at h
  | cons p t ih =>
    obtain ⟨k1, v1⟩ := p
    by_cases h1 : k1 = k
    · simp [dinsert, h1]
    · simp [dmem, dget?, h1] at h
      have := ih (by simpa [dmem] using h)
      simp [dinsert, h1, this]

theorem length_ddel_le (l : List (κ × α)) (k : κ) :
    (ddel l k).length ≤ l.length := by
  induction l with
  | nil => simp [ddel]
  | cons p t ih =>
    obtain ⟨k1, v1⟩ := p
    by_cases h : k1 = k <;> simp [ddel, h] <;> omega

theorem length_ddel_lt {l : List (κ × α)} {k : κ} (h : dmem l k = true) :
    (ddel l k).length < l.length := by
  induction l with
  | nil => simp [dmem, dget?] at h
  | cons p t ih =>
    obtain ⟨k1, v1⟩ := p
    by_cases h1 : k1 = k
    · have := length_ddel_le t k
      simp [ddel, h1]
      omega
    · simp [dmem, dget?, h1] at h
      have := ih (by simpa [dmem] using h)
      simp [ddel, h1]
      omega

theorem dget?_eq_none_iff {l : List (κ × α)} {k : κ} :
    dget? l k = none ↔ k ∉ l.map Prod.fst := by
  induction l with
  | nil => simp [dget?]
  | cons p t ih =>
    obtain ⟨k1, v1⟩ := p
    by_cases h1 : k1 = k <;> simp [dget?, h1, ih] <;> tauto

theorem nodupKeys_nil : NodupKeys ([] : List (κ × α)) := by
  simp [NodupKeys]

theorem nodupKeys_cons {p : κ × α} {t : List (κ × α)} :
    NodupKeys (p :: t) ↔ p.1 ∉ t.map Prod.fst ∧ NodupKeys t := by
  unfold NodupKeys
  rw [List.map_cons, List.nodup_cons]

theorem length_ddel_nodup {l : List (κ × α)} {k : κ} (h : dmem l k = true)
    (hn : NodupKeys l) : (ddel l k).length + 1 = l.length := by
  induction l with
  | nil => simp [dmem, dget?] at h
  | cons p t ih =>
    obtain ⟨k1, v1⟩ := p
    obtain ⟨hne, hnt⟩ := nodupKeys_cons.mp hn
    by_cases h1 : k1 = k
    · subst h1
      have hnone : dget? t k1 = none := dget?_eq_none_iff.mpr hne
      simp [ddel, ddel_eq_of_none hnone]
    · simp [dmem, dget?, h1] at h
      have := ih (by simpa [dmem] using h) hnt
      simp [ddel, h1]
      omega

theorem mem_keys_of_mem_keys_ddel {l : List (κ × α)} {k x : κ}
    (h : x ∈ (ddel l k).map Prod.fst) : x ∈ l.map Prod.fst := by
  induction l with
  | nil => simpa [ddel] using h
  | cons p t ih =>
    obtain ⟨k1, v1⟩ := p
    by_cases h1 : k1 = k
    · rw [List.map_cons]
      simp only [ddel, if_pos h1] at h
      exact List.mem_cons_of_mem _ (ih h)
    · simp only [ddel, if_neg h1, List.map_cons] at h ⊢
      rcases List.mem_cons.mp h with h2 | h2
      · exact List.mem_cons.mpr (Or.inl h2)
      · exact List.mem_cons.mpr (Or.inr (ih h2))

theorem mem_keys_dinsert {l : List (κ × α)} {k x : κ} {v : α}
    (h : x ∈ (dinsert l k v).map Prod.fst) : x ∈ l.map Prod.fst ∨ x = k := by
  induction l with
  | nil =>
    simp [dinsert] at h
    exact Or.inr h
  | cons p t ih =>
    obtain ⟨k1, v1⟩ := p
    by_cases h1 : k1 = k
    · simp only [dinsert, if_pos h1, List.map_cons] at h
      rcases List.mem_cons.mp h with h2 | h2
      · exact Or.inr h2
      · exact Or.inl (by rw [List.map_cons]; exact List.mem_cons.mpr (Or.inr h2))
    · simp only [dinsert, if_neg h1, List.map_cons] at h
      rcases List.mem_cons.mp h with h2 | h2
      · exact Or.inl (by rw [List.map_cons]; exact List.mem_cons.mpr (Or.inl h2))
      · rcases ih h2 with h3 | h3
        · exact Or.inl (by rw [List.map_cons]; exact List.mem_cons.mpr (Or.inr h3))
        · exact Or.inr h3

theorem nodupKeys_ddel {l : List (κ × α)} (k : κ) :
    NodupKeys l → NodupKeys (ddel l k) := by
  induction l with
  | nil =>
    intro _
    simpa [ddel] using (nodupKeys_nil : NodupKeys ([] : List (κ × α)))
  | cons p t ih =>
    intro h
    obtain ⟨k1, v1⟩ := p
    obtain ⟨hne, hnt⟩ := nodupKeys_cons.mp h
    by_cases h1 : k1 = k
    · simpa [ddel, h1] using ih hnt
    · simp only [ddel, if_neg h1]
      exact nodupKeys_cons.mpr ⟨fun hmem => hne (mem_keys_of_mem_keys_ddel hmem), ih hnt⟩

theorem nodupKeys_dinsert {l : List (κ × α)} (k : κ) (v : α) :
    NodupKeys l → NodupKeys (dinsert l k v) := by
  induction l with
  | nil =>
    intro _
    simp [dinsert, NodupKeys]
  | cons p t ih =>
    intro h
    obtain ⟨k1, v1⟩ := p
    obtain ⟨hne, hnt⟩ := nodupKeys_cons.mp h
    by_cases h1 : k1 = k
    · subst h1
      simp only [dinsert, if_pos rfl]
      exact nodupKeys_cons.mpr ⟨hne, hnt⟩
    · simp only [dinsert, if_neg h1]
      refine nodupKeys_cons.mpr ⟨?_, ih hnt⟩
      intro hmem
      rcases mem_keys_dinsert hmem with h2 | h2
      · exact hne h2
      · exact h1 h2

theorem mem_serase_of_ne {l : List κ} {k2 k : κ} (h : k2 ≠ k) (hm : k2 ∈ l) :
    k2 ∈ serase l k := by
  induction l with
  | nil => simp at hm
  | cons x t ih =>
    by_cases hx : x = k
    · subst hx
      rcases List.mem_cons.mp hm with hm1 | hm1
      · exact absurd hm1 h
      · simpa [serase] using hm1
    · simp only [serase, if_neg hx]
      rcases List.mem_cons.mp hm with hm1 | hm1
      · exact List.mem_cons.mpr (Or.inl hm1)
      · exact List.mem_cons.mpr (Or.inr (ih hm1))

theorem mem_setAdd_self (l : List κ) (k : κ) : k ∈ setAdd l k := by
  by_cases h : k ∈ l <;> simp [setAdd, h]

theorem mem_setAdd_of_mem {l : List κ} {k2 : κ} (k : κ) (h : k2 ∈ l) :
    k2 ∈ setAdd l k := by
  by_cases hk : k ∈ l <;> simp [setAdd, hk, h]

end DictLemmas

theorem remove_expired_fields (cm : CacheManager) (k : Key) :
    (cm.remove_expired k).cache = ddel cm.cache k ∧
    (cm.remove_expired k).timestamps = ddel cm.timestamps k ∧
    (cm.remove_expired k).size = cm.size ∧
    (cm.remove_expired k).policy = cm.policy ∧
    (cm.remove_expired k).ttl = cm.ttl ∧
    (cm.remove_expired k).stats_hits = cm.stats_hits ∧
    (cm.remove_expired k).stats_misses = cm.stats_misses ∧
    (cm.remove_expired k).stats_evictions = cm.stats_evictions ∧
    (cm.remove_expired k).stats_expirations = cm.stats_expirations + 1 := by
  simp only [CacheManager.remove_expired]
  refine ⟨?_, ?_, ?_, ?_, ?_, ?_, ?_, ?_, ?_⟩ <;> (repeat' split) <;> simp

theorem remove_expired_lfuok {cm : CacheManager} (k : Key) (h : LFUok cm) :
    LFUok (cm.remove_expired k) := by
  intro hp k2 hmem
  obtain ⟨hc, -, -, hpol, -⟩ := remove_expired_fields cm k
  rw [hpol] at hp
  rw [hc] at hmem
  obtain ⟨v2, hv2⟩ := dmem_iff.mp hmem
  have hne : k2 ≠ k := by
    intro e
    rw [e, dget?_ddel_self] at hv2
    exact Option.noConfusion hv2
  rw [dget?_ddel_ne _ hne] at hv2
  obtain ⟨f, g, hf, hg, hkg⟩ := h hp k2 (dmem_iff.mpr ⟨v2, hv2⟩)
  have hfreq2 : dget? (ddel cm.frequencies k) k2 = some f :=
    (dget?_ddel_ne cm.frequencies hne).trans hf
  have hnotFIFO : ¬(("LFU" : String) = "FIFO") := by decide
  simp only [CacheManager.remove_expired, hp, hnotFIFO, if_false, reduceIte]
  split
  · exact ⟨f, g, hf, hg, hkg⟩
  · rename_i freq hfreq
    split
    · exact ⟨f, g, hfreq2, hg, hkg⟩
    · rename_i grp hgrp
      split
      · rename_i hkgrp
        by_cases hff : f = freq
        · subst hff
          have hgg : g = grp := by
            rw [hg] at hgrp
            exact (Option.some.injEq _ _).mp hgrp
          subst hgg
          have hmem2 : k2 ∈ serase g k := mem_serase_of_ne hne hkg
          have hser : ¬(serase g k = []) := by
            intro e
            rw [e] at hmem2
            simp at hmem2
          refine ⟨f, serase g k, hfreq2, ?_, hmem2⟩
          simp only [if_neg hser]
          exact dget?_dinsert_self cm.freq_groups f (serase g k)
        · refine ⟨f, g, hfreq2, ?_, hkg⟩
          split
          · exact (dget?_ddel_ne cm.freq_groups hff).trans hg
          · exact (dget?_dinsert_ne cm.freq_groups _ hff).trans hg
      · exact ⟨f, g, hfreq2, hg, hkg⟩

theorem increment_frequency_fields {cm cm' : CacheManager} {k : Key}
    (h : cm.increment_frequency k = some cm') :
    cm'.cache = cm.cache ∧ cm'.timestamps = cm.timestamps ∧
    cm'.size = cm.size ∧ cm'.policy = cm.policy ∧ cm'.ttl = cm.ttl ∧
    cm'.stats_hits = cm.stats_hits ∧ cm'.stats_misses = cm.stats_misses ∧
    cm'.stats_evictions = cm.stats_evictions ∧
    cm'.stats_expirations = cm.stats_expirations ∧
    cm'.insertion_order = cm.insertion_order := by
  simp only [CacheManager.increment_frequency] at h
  split at h
  · exact Option.noConfusion h
  split at h
  · exact Option.noConfusion h
  split at h
  · rw [Option.some.injEq] at h
    subst h
    simp
  · exact Option.noConfusion h

theorem increment_frequency_lfuok {cm cm' : CacheManager} {k : Key}
    (h : cm.increment_frequency k = some cm') (hL : LFUok cm) : LFUok cm' := by
  simp only [CacheManager.increment_frequency] at h
  split at h
  · exact Option.noConfusion h
  rename_i old hfk
  split at h
  · exact Option.noConfusion h
  rename_i grp hgrp
  split at h
  case isFalse => exact Option.noConfusion h
  rename_i hkgrp
  rw [Option.some.injEq] at h
  subst h
  intro hp k2 hmem
  have hp' : cm.policy = "LFU" := hp
  have hmem' : dmem cm.cache k2 = true := hmem
  by_cases hk2 : k2 = k
  · subst hk2
    split
    · exact ⟨old + 1, [k2], dget?_dinsert_self _ _ _, dget?_dinsert_self _ _ _, by simp⟩
    · rename_i g hg
      exact ⟨old + 1, setAdd g k2, dget?_dinsert_self _ _ _, dget?_dinsert_self _ _ _,
        mem_setAdd_self g k2⟩
  · obtain ⟨f2, g2, hf2, hg2, hkg2⟩ := hL hp' k2 hmem'
    have hfl : dget? (dinsert cm.frequencies k (old + 1)) k2 = some f2 :=
      (dget?_dinsert_ne cm.frequencies (old + 1) hk2).trans hf2
    have holdnew : (old : Nat) ≠ old + 1 := Nat.ne_of_lt (Nat.lt_succ_self old)
    by_cases hfn : f2 = old + 1
    · have hsc : dget? (dinsert cm.freq_groups old (serase grp k)) (old + 1) = some g2 := by
        have h1 : dget? (dinsert cm.freq_groups old (serase grp k)) (old + 1) =
            dget? cm.freq_groups (old + 1) :=
          dget?_dinsert_ne cm.freq_groups (serase grp k) (fun e => holdnew e.symm)
        rw [h1, ← hfn, hg2]
      split
      · rename_i hnone
        rw [hsc] at hnone
        exact Option.noConfusion hnone
      · rename_i g hg
        have hgg : g = g2 := by
          rw [hsc] at hg
          exact ((Option.some.injEq _ _).mp hg).symm
        subst hgg
        refine ⟨f2, setAdd g k, hfl, ?_, mem_setAdd_of_mem k hkg2⟩
        rw [hfn]
        exact dget?_dinsert_self _ _ _
    · have hfall : ∀ X, dget? (dinsert (dinsert cm.freq_groups old (serase grp k)) (old + 1) X) f2
          = dget? (dinsert cm.freq_groups old (serase grp k)) f2 :=
        fun X => dget?_dinsert_ne _ X hfn
      by_cases hfo : f2 = old
      · have hgg : g2 = grp := by
          rw [hfo] at hg2
          rw [hg2] at hgrp
          exact (Option.some.injEq _ _).mp hgrp
        have hm2 : k2 ∈ serase grp k := mem_serase_of_ne hk2 (hgg ▸ hkg2)
        have hbase : dget? (dinsert cm.freq_groups old (serase grp k)) f2 =
            some (serase grp k) := by
          rw [hfo]
          exact dget?_dinsert_self _ _ _
        split
        · exact ⟨f2, serase grp k, hfl, (hfall _).trans hbase, hm2⟩
        · exact ⟨f2, serase grp k, hfl, (hfall _).trans hbase, hm2⟩
      · have hbase : dget? (dinsert cm.freq_groups old (serase grp k)) f2 = some g2 :=
          (dget?_dinsert_ne cm.freq_groups (serase grp k) hfo).trans hg2
        split
        · exact ⟨f2, g2, hfl, (hfall _).trans hbase, hkg2⟩
        · exact ⟨f2, g2, hfl, (hfall _).trans hbase, hkg2⟩

theorem evict_spec {cm cm' : CacheManager} (h : cm.evict = some cm') :
    cm'.cache.length < cm.cache.length ∧
    cm'.size = cm.size ∧ cm'.policy = cm.policy ∧ cm'.ttl = cm.ttl ∧
    cm'.stats_hits = cm.stats_hits ∧ cm'.stats_misses = cm.stats_misses ∧
    cm'.stats_expirations = cm.stats_expirations ∧
    cm'.stats_evictions = cm.stats_evictions + 1 ∧
    (NodupKeys cm.cache → NodupKeys cm'.cache) ∧
    (LFUok cm → LFUok cm') := by
  simp only [CacheManager.evict] at h
  split at h
  · -- LRU branch
    rename_i hLRU
    split at h
    · exact Option.noConfusion h
    · rename_i k v rest hcons
      rw [Option.some.injEq] at h
      subst h
      refine ⟨?_, rfl, rfl, rfl, rfl, rfl, rfl, rfl, ?_, ?_⟩
      · rw [hcons]
        simp
      · intro hn
        rw [hcons] at hn
        exact (nodupKeys_cons.mp hn).2
      · intro _ hp _
        exact absurd (hp.symm.trans hLRU) (by decide)
  split at h
  · -- FIFO branch
    rename_i hFIFO
    split at h
    · exact Option.noConfusion h
    · rename_i k rest hcons
      split at h
      · rename_i hmemc
        rw [Option.some.injEq] at h
        subst h
        refine ⟨length_ddel_lt hmemc, rfl, rfl, rfl, rfl, rfl, rfl, rfl, ?_, ?_⟩
        · intro hn
          exact nodupKeys_ddel k hn
        · intro _ hp _
          exact absurd (hp.symm.trans hFIFO) (by decide)
      · exact Option.noConfusion h
  split at h
  · -- LFU branch
    rename_i hLFU
    split at h
    · exact Option.noConfusion h
    rename_i grp hmin
    split at h
    · exact Option.noConfusion h
    rename_i khd ktl
    split at h
    case isFalse => exact Option.noConfusion h
    rename_i hmemf
    split at h
    case isFalse => exact Option.noConfusion h
    rename_i hmemc
    rw [Option.some.injEq] at h
    subst h
    refine ⟨length_ddel_lt hmemc, rfl, rfl, rfl, rfl, rfl, rfl, rfl, ?_, ?_⟩
    · intro hn
      exact nodupKeys_ddel khd hn
    · intro hL hp k2 hmem2
      have hp' : cm.policy = "LFU" := hp
      obtain ⟨v2, hv2⟩ := dmem_iff.mp hmem2
      have hne : k2 ≠ khd := by
        intro e
        rw [e] at hv2
        rw [dget?_ddel_self] at hv2
        exact Option.noConfusion hv2
      rw [dget?_ddel_ne _ hne] at hv2
      obtain ⟨f2, g2, hf2, hg2, hkg2⟩ := hL hp' k2 (dmem_iff.mpr ⟨v2, hv2⟩)
      exact ⟨f2, g2, (dget?_ddel_ne cm.frequencies hne).trans hf2, hg2, hkg2⟩
  · exact Option.noConfusion h

theorem nodupKeys_append_single {κ α : Type} [DecidableEq κ] {l : List (κ × α)}
    {k : κ} {v : α} (h : NodupKeys l) (hk : k ∉ l.map Prod.fst) :
    NodupKeys (l ++ [(k, v)]) := by
  unfold NodupKeys
  rw [List.map_append, List.nodup_append]
  refine ⟨h, by simp, ?_⟩
  intro a ha hmem
  simp at hmem
  subst hmem
  exact hk ha

theorem moveToEnd_spec {l c : List (Key × Val)} {k : Key} (h : moveToEnd l k = some c) :
    ∃ v, dget? l k = some v ∧ dget? c k = some v ∧ c.length ≤ l.length ∧
      (NodupKeys l → c.length = l.length ∧ NodupKeys c) := by
  simp only [moveToEnd] at h
  split at h
  · exact Option.noConfusion h
  · rename_i v hv
    rw [Option.some.injEq] at h
    subst h
    have hm : dmem l k = true := dmem_iff.mpr ⟨v, hv⟩
    refine ⟨v, hv, ?_, ?_, ?_⟩
    · rw [dget?_append (dget?_ddel_self l k)]
      simp [dget?]
    · have h1 : (ddel l k).length < l.length := length_ddel_lt hm
      simp
      omega
    · intro hn
      constructor
      · have h2 := length_ddel_nodup hm hn
        simp
        omega
      · exact nodupKeys_append_single (nodupKeys_ddel k hn)
          (dget?_eq_none_iff.mp (dget?_ddel_self l k))

theorem get_spec {cm cm' : CacheManager} {t : ℚ} {k : Key} {r : Option Val}
    (h : cm.get t k = some (r, cm')) :
    cm'.size = cm.size ∧ cm'.policy = cm.policy ∧ cm'.ttl = cm.ttl ∧
    cm'.stats_hits + cm'.stats_misses = cm.stats_hits + cm.stats_misses + 1 ∧
    cm'.stats_evictions = cm.stats_evictions ∧
    cm'.cache.length ≤ cm.cache.length ∧
    (NodupKeys cm.cache → NodupKeys cm'.cache) ∧
    (LFUok cm → LFUok cm') := by
  simp only [CacheManager.get] at h
  split at h
  case isFalse =>
    rw [Option.some.injEq, Prod.mk.injEq] at h
    obtain ⟨-, h2⟩ := h
    subst h2
    exact ⟨rfl, rfl, rfl, rfl, rfl, le_refl _, fun hn => hn, fun hL => hL⟩
  rename_i hmemk
  split at h
  · -- expired path
    rw [Option.some.injEq, Prod.mk.injEq] at h
    obtain ⟨-, h2⟩ := h
    subst h2
    obtain ⟨hc, -, hsz, hpol, httl, hhits, hmiss, hevi, -⟩ := remove_expired_fields cm k
    refine ⟨hsz, hpol, httl, ?_, hevi, ?_, ?_, ?_⟩
    · simp only [hhits, hmiss]
      omega
    · dsimp only
      rw [hc]
      exact length_ddel_le cm.cache k
    · intro hn
      dsimp only
      rw [hc]
      exact nodupKeys_ddel k hn
    · intro hL
      exact remove_expired_lfuok k hL
  · -- hit path
    split at h
    case h_1 => exact Option.noConfusion h
    case h_2 =>
      rename_i s2 hstep
      split at h
      case h_1 => exact Option.noConfusion h
      case h_2 =>
        rename_i v hv
        rw [Option.some.injEq, Prod.mk.injEq] at h
        obtain ⟨-, h2⟩ := h
        subst h2
        -- analyze the policy dispatch that produced s2
        split at hstep
        · -- LRU: move_to_end
          rename_i hLRU
          split at hstep
          · exact Option.noConfusion hstep
          · rename_i c hmv
            rw [Option.some.injEq] at hstep
            subst hstep
            obtain ⟨v0, -, -, hlen, hnd⟩ := moveToEnd_spec hmv
            refine ⟨rfl, rfl, rfl, by dsimp only; omega, rfl, hlen, ?_, ?_⟩
            · intro hn
              exact (hnd hn).2
            · intro hL hp
              exact absurd ((show cm.policy = "LFU" from hp).symm.trans hLRU) (by decide)
        · split at hstep
          · -- LFU: increment_frequency
            obtain ⟨hc, -, hsz, hpol, httl, hhits, hmiss, hevi, -, -⟩ :=
              increment_frequency_fields hstep
            refine ⟨hsz, hpol, httl, ?_, hevi, ?_, ?_, ?_⟩
            · simp only [hhits, hmiss]
              omega
            · rw [hc]
            · intro hn
              rw [hc]
              exact hn
            · intro hL
              exact increment_frequency_lfuok hstep hL
          · -- FIFO (or any other tag): no bookkeeping
            rw [Option.some.injEq] at hstep
            subst hstep
            exact ⟨rfl, rfl, rfl, by dsimp only; omega, rfl, le_refl _, fun hn => hn,
              fun hL => hL⟩

theorem put_spec_aux {cm cm' : CacheManager} {t : ℚ} {k : Key} {v : Val}
    (hcond : (dmem cm.cache k && cm.is_expired t k) = false)
    (h : cm.put t k v = some cm') :
    cm'.size = cm.size ∧ cm'.policy = cm.policy ∧ cm'.ttl = cm.ttl ∧
    cm'.stats_hits = cm.stats_hits ∧ cm'.stats_misses = cm.stats_misses ∧
    ((cm.cache.length : Int) ≤ max cm.size 0 → (cm'.cache.length : Int) ≤ max cm.size 0) ∧
    (NodupKeys cm.cache → NodupKeys cm'.cache) ∧
    (LFUok cm → LFUok cm') := by
  simp only [CacheManager.put, hcond, Bool.false_eq_true, if_false] at h
  split at h
  · -- update branch: the key is live, only its slot is rewritten
    rename_i hmemk
    have hsame : (dinsert cm.cache k v).length = cm.cache.length :=
      length_dinsert_mem v hmemk
    split at h
    · -- LRU bookkeeping
      rename_i hLRU
      split at h
      · exact Option.noConfusion h
      · rename_i c hmv
        rw [Option.some.injEq] at h
        subst h
        obtain ⟨v0, hv0, -, hlen, hnd⟩ := moveToEnd_spec hmv
        refine ⟨rfl, rfl, rfl, rfl, rfl, ?_, ?_, ?_⟩
        · intro hb
          have h1 : c.length ≤ cm.cache.length := by
            calc c.length ≤ (dinsert cm.cache k v).length := hlen
            _ = cm.cache.length := hsame
          exact le_trans (by exact_mod_cast h1) hb
        · intro hn
          exact (hnd (nodupKeys_dinsert k v hn)).2
        · intro hL hp
          exact absurd ((show cm.policy = "LFU" from hp).symm.trans
            (show cm.policy = "LRU" from hLRU)) (by decide)
    · split at h
      · -- LFU bookkeeping
        rename_i hLFU
        obtain ⟨hc, -, hsz, hpol, httl, hhits, hmiss, -, -, -⟩ :=
          increment_frequency_fields h
        have hL1 : LFUok cm → LFUok { cm with cache := dinsert cm.cache k v, timestamps := dinsert cm.timestamps k t } := by
          intro hL hp k2 hm
          have hp' : cm.policy = "LFU" := hp
          by_cases hk2 : k2 = k
          · subst hk2
            exact hL hp' k2 hmemk
          · have hm' : dmem cm.cache k2 = true := by
              have he := dget?_dinsert_ne cm.cache v hk2
              simpa [dmem, he] using hm
            exact hL hp' k2 hm'
        refine ⟨hsz, hpol, httl, hhits, hmiss, ?_, ?_, ?_⟩
        · intro hb
          rw [hc]
          dsimp only
          rw [hsame]
          exact hb
        · intro hn
          rw [hc]
          exact nodupKeys_dinsert k v hn
        · intro hL
          exact increment_frequency_lfuok h (hL1 hL)
      · -- FIFO (or any other tag): plain overwrite
        rename_i hnLRU hnLFU
        rw [Option.some.injEq] at h
        subst h
        refine ⟨rfl, rfl, rfl, rfl, rfl, ?_, ?_, ?_⟩
        · intro hb
          dsimp only
          rw [hsame]
          exact hb
        · intro hn
          exact nodupKeys_dinsert k v hn
        · intro hL hp
          exact absurd hp hnLFU
  · -- new-key branch: evict when at (or beyond) capacity, then insert
    rename_i hmemk
    rcases hevar : (if (cm.cache.length : Int) ≥ cm.size then cm.evict else some cm)
      with - | s1
    · rw [hevar] at h
      exact Option.noConfusion h
    · rw [hevar] at h
      dsimp only at h
      have hfacts : s1.size = cm.size ∧ s1.policy = cm.policy ∧ s1.ttl = cm.ttl ∧
          s1.stats_hits = cm.stats_hits ∧ s1.stats_misses = cm.stats_misses ∧
          ((cm.cache.length : Int) ≤ max cm.size 0 →
            ((s1.cache.length : Int) + 1 ≤ max cm.size 0)) ∧
          (NodupKeys cm.cache → NodupKeys s1.cache) ∧
          (LFUok cm → LFUok s1) := by
        split at hevar
        · rename_i hfull
          obtain ⟨hlt, hsz, hpol, httl, hh, hm, -, -, hnd, hLt⟩ := evict_spec hevar
          refine ⟨hsz, hpol, httl, hh, hm, ?_, hnd, hLt⟩
          intro hb
          have h1 : (s1.cache.length : Int) < (cm.cache.length : Int) := by
            exact_mod_cast hlt
          omega
        · rename_i hnotfull
          rw [Option.some.injEq] at hevar
          subst hevar
          refine ⟨rfl, rfl, rfl, rfl, rfl, ?_, fun hn => hn, fun hL => hL⟩
          intro hb
          have h2 : (0 : Int) ≤ (cm.cache.length : Int) := by positivity
          omega
      obtain ⟨hsz, hpol, httl, hh, hm, hlen1, hnd1, hL1⟩ := hfacts
      have hlen2 : ((dinsert s1.cache k v).length : Int) ≤ (s1.cache.length : Int) + 1 := by
        exact_mod_cast length_dinsert_le s1.cache k v
      split at h
      · -- FIFO: also append to the insertion-order deque
        rename_i hFIFO
        rw [Option.some.injEq] at h
        subst h
        refine ⟨hsz, hpol, httl, hh, hm, ?_, ?_, ?_⟩
        · intro hb
          have h3 := hlen1 hb
          dsimp only
          omega
        · intro hn
          exact nodupKeys_dinsert k v (hnd1 hn)
        · intro hL hp
          have hp' : s1.policy = "LFU" := hp
          have hF : s1.policy = "FIFO" := hFIFO
          exact absurd (hp'.symm.trans hF) (by decide)
      · split at h
        · -- LFU: fresh frequency-1 entry
          rename_i hLFU
          rw [Option.some.injEq] at h
          subst h
          refine ⟨hsz, hpol, httl, hh, hm, ?_, ?_, ?_⟩
          · intro hb
            have h3 := hlen1 hb
            dsimp only
            omega
          · intro hn
            exact nodupKeys_dinsert k v (hnd1 hn)
          · intro hL hp k2 hm2
            by_cases hk2 : k2 = k
            · subst hk2
              refine ⟨1, ?_⟩
              split
              · exact ⟨[k2], dget?_dinsert_self _ _ _, dget?_dinsert_self _ _ _, by simp⟩
              · rename_i g hg
                exact ⟨setAdd g k2, dget?_dinsert_self _ _ _, dget?_dinsert_self _ _ _,
                  mem_setAdd_self g k2⟩
            · have hm2' : dmem s1.cache k2 = true := by
                have he := dget?_dinsert_ne s1.cache v hk2
                simpa [dmem, he] using hm2
              have hpl : s1.policy = "LFU" := hLFU
              obtain ⟨f2, g2, hf2, hg2, hkg2⟩ := hL1 hL hpl k2 hm2'
              refine ⟨f2, ?_⟩
              have hfl : dget? (dinsert s1.frequencies k 1) k2 = some f2 :=
                (dget?_dinsert_ne s1.frequencies 1 hk2).trans hf2
              by_cases hf1 : f2 = 1
              · have hsc : dget? s1.freq_groups 1 = some g2 := hf1 ▸ hg2
                split
                · rename_i hnone
                  rw [hsc] at hnone
                  exact Option.noConfusion hnone
                · rename_i g hg
                  have hgg : g = g2 := by
                    rw [hsc] at hg
                    exact ((Option.some.injEq _ _).mp hg).symm
                  subst hgg
                  refine ⟨setAdd g k, hfl, ?_, mem_setAdd_of_mem k hkg2⟩
                  rw [hf1]
                  exact dget?_dinsert_self _ _ _
              · refine ⟨g2, hfl, ?_, hkg2⟩
                split
                · exact (dget?_dinsert_ne s1.freq_groups _ hf1).trans hg2
                · exact (dget?_dinsert_ne s1.freq_groups _ hf1).trans hg2
        · -- LRU (or any other tag): plain insert
          rename_i hnFIFO hnLFU
          rw [Option.some.injEq] at h
          subst h
          refine ⟨hsz, hpol, httl, hh, hm, ?_, ?_, ?_⟩
          · intro hb
            have h3 := hlen1 hb
            dsimp only
            omega
          · intro hn
            exact nodupKeys_dinsert k v (hnd1 hn)
          · intro hL hp
            exact absurd hp hnLFU

theorem put_expired_step {cm cm' : CacheManager} {t : ℚ} {k : Key} {v : Val}
    (hcond : (dmem cm.cache k && cm.is_expired t k) = true)
    (h : cm.put t k v = some cm') :
    (cm.remove_expired k).put t k v = some cm' := by
  have hc := (remove_expired_fields cm k).1
  have hmem0 : dmem (cm.remove_expired k).cache k = false := by
    rw [dmem_eq_false_iff, hc]
    exact dget?_ddel_self _ _
  simp only [CacheManager.put, hcond, if_true] at h
  simp only [hmem0, Bool.false_eq_true, if_false] at h
  simp only [CacheManager.put, hmem0, Bool.false_and, Bool.false_eq_true, if_false]
  exact h

theorem put_spec {cm cm' : CacheManager} {t : ℚ} {k : Key} {v : Val}
    (h : cm.put t k v = some cm') :
    cm'.size = cm.size ∧ cm'.policy = cm.policy ∧ cm'.ttl = cm.ttl ∧
    cm'.stats_hits = cm.stats_hits ∧ cm'.stats_misses = cm.stats_misses ∧
    ((cm.cache.length : Int) ≤ max cm.size 0 → (cm'.cache.length : Int) ≤ max cm.size 0) ∧
    (NodupKeys cm.cache → NodupKeys cm'.cache) ∧
    (LFUok cm → LFUok cm') := by
  by_cases hcond : (dmem cm.cache k && cm.is_expired t k) = true
  · obtain ⟨hc, -, hsz, hpol, httl, hhits, hmiss, -, -⟩ := remove_expired_fields cm k
    have h2 := put_expired_step hcond h
    have hmem0 : dmem (cm.remove_expired k).cache k = false := by
      rw [dmem_eq_false_iff, hc]
      exact dget?_ddel_self _ _
    have hcond2 : (dmem (cm.remove_expired k).cache k &&
        (cm.remove_expired k).is_expired t k) = false := by
      rw [hmem0]
      exact Bool.false_and _
    obtain ⟨h1, h2', h3, h4, h5, h6, h7, h8⟩ := put_spec_aux hcond2 h2
    refine ⟨h1.trans hsz, h2'.trans hpol, h3.trans httl, h4.trans hhits, h5.trans hmiss,
      ?_, ?_, ?_⟩
    · intro hb
      have hbb : (((cm.remove_expired k).cache.length : Int) ≤
          max (cm.remove_expired k).size 0) := by
        rw [hc, hsz]
        have hdel : ((ddel cm.cache k).length : Int) ≤ (cm.cache.length : Int) := by
          exact_mod_cast length_ddel_le cm.cache k
        exact le_trans hdel hb
      have hres := h6 hbb
      rwa [hsz] at hres
    · intro hn
      refine h7 ?_
      rw [hc]
      exact nodupKeys_ddel k hn
    · intro hL
      exact h8 (remove_expired_lfuok k hL)
  · have hcond' : (dmem cm.cache k && cm.is_expired t k) = false := by
      cases hx : (dmem cm.cache k && cm.is_expired t k)
      · rfl
      · exact absurd hx hcond
    exact put_spec_aux hcond' h

theorem put_self_state_aux {cm cm' : CacheManager} {t : ℚ} {k : Key} {v : Val}
    (hcond : (dmem cm.cache k && cm.is_expired t k) = false)
    (h : cm.put t k v = some cm') :
    dget? cm'.timestamps k = some t ∧ dmem cm'.cache k = true := by
  simp only [CacheManager.put, hcond, Bool.false_eq_true, if_false] at h
  split at h
  · -- update branch
    split at h
    · split at h
      · exact Option.noConfusion h
      · rename_i c hmv
        rw [Option.some.injEq] at h
        subst h
        obtain ⟨v0, -, hc2, -, -⟩ := moveToEnd_spec hmv
        refine ⟨dget?_dinsert_self _ _ _, ?_⟩
        rw [dmem_iff]
        exact ⟨v0, hc2⟩
    · split at h
      · obtain ⟨hcc, hts, -, -, -, -, -, -, -, -⟩ := increment_frequency_fields h
        refine ⟨?_, ?_⟩
        · rw [hts]
          exact dget?_dinsert_self _ _ _
        · rw [dmem_iff]
          refine ⟨v, ?_⟩
          rw [hcc]
          exact dget?_dinsert_self _ _ _
      · rw [Option.some.injEq] at h
        subst h
        refine ⟨dget?_dinsert_self _ _ _, ?_⟩
        rw [dmem_iff]
        exact ⟨v, dget?_dinsert_self _ _ _⟩
  · -- new-key branch
    rename_i hmemk
    rcases hevar : (if (cm.cache.length : Int) ≥ cm.size then cm.evict else some cm)
      with - | s1
    · rw [hevar] at h
      exact Option.noConfusion h
    · rw [hevar] at h
      dsimp only at h
      split at h
      · rw [Option.some.injEq] at h
        subst h
        refine ⟨dget?_dinsert_self _ _ _, ?_⟩
        rw [dmem_iff]
        exact ⟨v, dget?_dinsert_self _ _ _⟩
      · split at h
        · rw [Option.some.injEq] at h
          subst h
          refine ⟨dget?_dinsert_self _ _ _, ?_⟩
          rw [dmem_iff]
          exact ⟨v, dget?_dinsert_self _ _ _⟩
        · rw [Option.some.injEq] at h
          subst h
          refine ⟨dget?_dinsert_self _ _ _, ?_⟩
          rw [dmem_iff]
          exact ⟨v, dget?_dinsert_self _ _ _⟩

theorem put_self_state {cm cm' : CacheManager} {t : ℚ} {k : Key} {v : Val}
    (h : cm.put t k v = some cm') :
    dget? cm'.timestamps k = some t ∧ dmem cm'.cache k = true := by
  by_cases hcond : (dmem cm.cache k && cm.is_expired t k) = true
  · have h2 := put_expired_step hcond h
    have hmem0 : dmem (cm.remove_expired k).cache k = false := by
      rw [dmem_eq_false_iff, (remove_expired_fields cm k).1]
      exact dget?_ddel_self _ _
    have hcond2 : (dmem (cm.remove_expired k).cache k &&
        (cm.remove_expired k).is_expired t k) = false := by
      rw [hmem0]
      exact Bool.false_and _
    exact put_self_state_aux hcond2 h2
  · have hcond' : (dmem cm.cache k && cm.is_expired t k) = false := by
      cases hx : (dmem cm.cache k && cm.is_expired t k)
      · rfl
      · exact absurd hx hcond
    exact put_self_state_aux hcond' h

theorem put_update_spec {cm : CacheManager} {t : ℚ} {k : Key} {v0 : Val} (w : Val)
    (hmem : dget? cm.cache k = some v0) (hexp : cm.is_expired t k = false)
    (hnd : NodupKeys cm.cache) (hL : LFUok cm) :
    ∃ cm', cm.put t k w = some cm' ∧ cm'.cache.length = cm.cache.length ∧
      cm'.stats_evictions = cm.stats_evictions ∧
      dget? cm'.cache k = some w ∧ dget? cm'.timestamps k = some t := by
  have hmemb : dmem cm.cache k = true := dmem_iff.mpr ⟨v0, hmem⟩
  have hcond : (dmem cm.cache k && cm.is_expired t k) = false := by
    rw [hexp]
    exact Bool.and_false _
  have hsame : (dinsert cm.cache k w).length = cm.cache.length :=
    length_dinsert_mem w hmemb
  simp only [CacheManager.put, hcond, Bool.false_eq_true, if_false]
  simp only [hmemb, if_true]
  by_cases hLRU : cm.policy = "LRU"
  · rw [if_pos hLRU]
    have hmv : moveToEnd (dinsert cm.cache k w) k =
        some (ddel (dinsert cm.cache k w) k ++ [(k, w)]) := by
      simp only [moveToEnd, dget?_dinsert_self]
    rw [hmv]
    have hmem2 : dmem (dinsert cm.cache k w) k = true := by
      rw [dmem_iff]
      exact ⟨w, dget?_dinsert_self _ _ _⟩
    have hnd2 : NodupKeys (dinsert cm.cache k w) := nodupKeys_dinsert k w hnd
    have hdl := length_ddel_nodup hmem2 hnd2
    refine ⟨_, rfl, ?_, rfl, ?_, ?_⟩
    · dsimp only
      rw [List.length_append]
      simp only [List.length_cons, List.length_nil]
      omega
    · dsimp only
      rw [dget?_append (dget?_ddel_self _ _)]
      simp [dget?]
    · dsimp only
      exact dget?_dinsert_self _ _ _
  · rw [if_neg hLRU]
    by_cases hLFU : cm.policy = "LFU"
    · rw [if_pos hLFU]
      obtain ⟨f, g, hf, hg, hkg⟩ := hL hLFU k hmemb
      rcases hres : ({ cm with cache := dinsert cm.cache k w, timestamps := dinsert cm.timestamps k t } : CacheManager).increment_frequency k with - | cm2
      · exfalso
        simp only [CacheManager.increment_frequency, hf, hg] at hres
        rw [if_pos hkg] at hres
        exact Option.noConfusion hres
      · obtain ⟨hcc, hts, -, -, -, -, -, hevi, -, -⟩ := increment_frequency_fields hres
        refine ⟨cm2, rfl, ?_, hevi, ?_, ?_⟩
        · rw [hcc]
          exact hsame
        · rw [hcc]
          exact dget?_dinsert_self _ _ _
        · rw [hts]
          exact dget?_dinsert_self _ _ _
    · rw [if_neg hLFU]
      refine ⟨_, rfl, ?_, rfl, ?_, ?_⟩
      · exact hsame
      · exact dget?_dinsert_self _ _ _
      · exact dget?_dinsert_self _ _ _

theorem make_ok_fields {size : Int} {policy : String} {ttl : ℚ} {cm0 : CacheManager}
    (h : CacheManager.make size policy ttl = Except.ok cm0) :
    cm0.size = size ∧ cm0.ttl = ttl ∧ cm0.stats_hits = 0 ∧ cm0.stats_misses = 0 ∧
    cm0.cache = [] ∧ cm0.policy = pyUpper policy := by
  simp only [CacheManager.make] at h
  split at h
  · rw [Except.ok.injEq] at h
    subst h
    exact ⟨rfl, rfl, rfl, rfl, rfl, rfl⟩
  · exact Except.noConfusion h

theorem make_reachinv {size : Int} {policy : String} {ttl : ℚ} {cm0 : CacheManager}
    (h : CacheManager.make size policy ttl = Except.ok cm0) : ReachInv cm0 := by
  obtain ⟨-, -, -, -, hcache, -⟩ := make_ok_fields h
  refine ⟨?_, ?_, ?_⟩
  · rw [hcache]
    exact nodupKeys_nil
  · intro hp k hm
    rw [hcache] at hm
    simp [dmem, dget?] at hm
  · rw [hcache]
    simp

theorem run_spec : ∀ (ops : List Op) (cm0 cm : CacheManager), run cm0 ops = some cm →
    cm.size = cm0.size ∧ cm.policy = cm0.policy ∧ cm.ttl = cm0.ttl ∧
    cm.stats_hits + cm.stats_misses = cm0.stats_hits + cm0.stats_misses + countGets ops ∧
    (ReachInv cm0 → ReachInv cm) := by
  intro ops
  induction ops with
  | nil =>
    intro cm0 cm h
    simp only [run, Option.some.injEq] at h
    subst h
    exact ⟨rfl, rfl, rfl, by simp [countGets], fun hI => hI⟩
  | cons op rest ih =>
    intro cm0 cm h
    cases op with
    | get t k =>
      simp only [run] at h
      split at h
      · exact Option.noConfusion h
      · rename_i r cm1 hget
        obtain ⟨hsz, hpol, httl, hsum, hevi, hlen, hnd, hLt⟩ := get_spec hget
        obtain ⟨hsz2, hpol2, httl2, hsum2, hinv2⟩ := ih cm1 cm h
        refine ⟨hsz2.trans hsz, hpol2.trans hpol, httl2.trans httl, ?_, ?_⟩
        · rw [hsum2, hsum]
          simp only [countGets]
          omega
        · rintro ⟨hn0, hL0, hb0⟩
          refine hinv2 ⟨hnd hn0, hLt hL0, ?_⟩
          rw [hsz]
          have hcast : (cm1.cache.length : Int) ≤ (cm0.cache.length : Int) := by
            exact_mod_cast hlen
          exact le_trans hcast hb0
    | put t k v =>
      simp only [run] at h
      split at h
      · exact Option.noConfusion h
      · rename_i cm1 hput
        obtain ⟨hsz, hpol, httl, hh, hm, hlen, hnd, hLt⟩ := put_spec hput
        obtain ⟨hsz2, hpol2, httl2, hsum2, hinv2⟩ := ih cm1 cm h
        refine ⟨hsz2.trans hsz, hpol2.trans hpol, httl2.trans httl, ?_, ?_⟩
        · rw [hsum2, hh, hm]
          simp only [countGets]
        · rintro ⟨hn0, hL0, hb0⟩
          refine hinv2 ⟨hnd hn0, hLt hL0, ?_⟩
          rw [hsz]
          exact hlen hb0

theorem get_miss_not_mem {cm cm' : CacheManager} {t : ℚ} {q : Key}
    (h : cm.get t q = some (none, cm')) : dmem cm'.cache q = false := by
  simp only [CacheManager.get] at h
  split at h
  case isFalse =>
    rename_i hmemk
    rw [Option.some.injEq, Prod.mk.injEq] at h
    obtain ⟨-, h2⟩ := h
    subst h2
    cases hx : dmem cm.cache q
    · rfl
    · exact absurd hx hmemk
  split at h
  · rw [Option.some.injEq, Prod.mk.injEq] at h
    obtain ⟨-, h2⟩ := h
    subst h2
    rw [dmem_eq_false_iff]
    dsimp only
    rw [(remove_expired_fields cm q).1]
    exact dget?_ddel_self _ _
  · split at h
    case h_1 => exact Option.noConfusion h
    case h_2 =>
      split at h
      case h_1 => exact Option.noConfusion h
      case h_2 =>
        rw [Option.some.injEq, Prod.mk.injEq] at h
        exact Option.noConfusion h.1

/-- C1: for every cache constructed with a positive capacity and a recognized
policy, after every successful sequence of get/put operations the number of
live entries is at most the configured capacity. -/
theorem C1_capacity_invariant (size : Int) (policy : String) (ttl : ℚ)
    (cm0 cm : CacheManager) (ops : List Op)
    (hmk : CacheManager.make size policy ttl = Except.ok cm0)
    (hpos : 0 < size) (hrun : run cm0 ops = some cm) :
    (cm.cache.length : Int) ≤ size := by
  obtain ⟨hsz0, -, -, -, -, -⟩ := make_ok_fields hmk
  obtain ⟨hsz, -, -, -, hinv⟩ := run_spec ops cm0 cm hrun
  have hb := (hinv (make_reachinv hmk)).2.2
  rw [hsz, hsz0] at hb
  rwa [max_eq_left (le_of_lt hpos)] at hb

/-- Witness for C1 at capacity 1, policy FIFO, the single operation
`put(0, "a", 1)`. -/
theorem C1_capacity_invariant_witness :
    CacheManager.make 1 "FIFO" 0 = Except.ok cmFIFO1 ∧ (0 : Int) < 1 ∧
    run cmFIFO1 [Op.put 0 "a" 1] = some cmFIFO1a ∧
    ((cmFIFO1a.cache.length : Int) ≤ 1) :=
  ⟨rfl, by decide, by decide,
    C1_capacity_invariant 1 "FIFO" 0 cmFIFO1 cmFIFO1a [Op.put 0 "a" 1] rfl (by decide)
      (by decide)⟩

/-- C2: the policy-private structures are NOT kept consistent with the entry
mapping under LFU: after `put a; put b` on a capacity-1 LFU cache, the evicted
key `a` is gone from the entries but still sits in the frequency-1 bucket
(`_evict` never removes the victim from its bucket). -/
theorem C2_lfu_bucket_leak :
    (run cmLFU1 [Op.put 0 "a" 1, Op.put 0 "b" 2]).map
        (fun cm => (dmem cm.cache "a", dget? cm.freq_groups 1)) =
      some (false, some ["a", "b"]) := by decide

/-- C3: get/put are NOT total: on a capacity-1 LFU cache the sequence
`put a; put b; get b; put c` raises a `KeyError` inside `_evict` (the stale
key `a` is picked from the minimum bucket but no longer has a frequency
entry). -/
theorem C3_lfu_runtime_error :
    run cmLFU1 [Op.put 0 "a" 1, Op.put 0 "b" 2, Op.get 0 "b", Op.put 0 "c" 3] = none := by
  decide

/-- C4: the fill-then-insert cycle does NOT always remove exactly one entry
under LFU: after `put a; put b; get b` the capacity-1 cache is full and `c` is
absent, yet `put c` raises instead of evicting exactly one entry (it removes
zero entries while still incrementing the eviction counter before failing). -/
theorem C4_eviction_failure :
    (run cmLFU1 [Op.put 0 "a" 1, Op.put 0 "b" 2, Op.get 0 "b"]).map
        (fun cm => (cm.cache.length, cm.size, dmem cm.cache "c", cm.put 0 "c" 3)) =
      some (1, 1, false, none) := by decide

/-- C5 counterexample: construction with capacity 0 succeeds — the constructor
never validates the capacity. -/
theorem C5_capacity_not_validated : (CacheManager.make 0 "LRU" 0).isOk = true := by
  decide

/-- C5 (amended): construction succeeds if and only if the upper-cased policy
tag is one of LRU/FIFO/LFU; the capacity (and ttl) are accepted unchecked, so
zero or negative capacities do NOT fail. -/
theorem C5_construction_error_iff (size : Int) (policy : String) (ttl : ℚ) :
    (CacheManager.make size policy ttl).isOk = true ↔
      (pyUpper policy = "LRU" ∨ pyUpper policy = "FIFO" ∨ pyUpper policy = "LFU") := by
  simp only [CacheManager.make]
  split
  · rename_i hok
    simpa [Except.isOk, Except.toBool] using hok
  · rename_i herr
    simpa [Except.isOk, Except.toBool] using herr

/-- C6 counterexample: after one miss and one hit the reported `hit_rate` is
the percentage 50, not the ratio 1/2 the claim asserts. -/
theorem C6_hit_rate_not_ratio :
    run cmLRU10 [Op.get 0 "a", Op.put 0 "a" 7, Op.get 1 "a"] = some cmC6 ∧
    cmC6.get_stats.hits = 1 ∧ cmC6.get_stats.misses = 1 ∧
    cmC6.get_stats.hit_rate = 50 ∧
    cmC6.get_stats.hit_rate ≠
      (cmC6.get_stats.hits : ℚ) / ((cmC6.get_stats.hits : ℚ) + (cmC6.get_stats.misses : ℚ)) := by
  have hrate : cmC6.get_stats.hit_rate = 50 := by
    norm_num [CacheManager.get_stats, cmC6, cmLRU10, initCM, pyRound2, roundHalfEven]
  refine ⟨by decide, by decide, by decide, hrate, ?_⟩
  rw [hrate]
  have h1 : cmC6.get_stats.hits = 1 := by decide
  have h2 : cmC6.get_stats.misses = 1 := by decide
  rw [h1, h2]
  norm_num

/-- C6 (amended): for any successful sequence of operations on a constructed
cache, `hits + misses` equals the number of `get` calls, and `hit_rate` is the
rounded PERCENTAGE `round(hits / (hits + misses) * 100, 2)` — not the bare
ratio — and 0 when no `get` has occurred. -/
theorem C6_stats_accounting (size : Int) (policy : String) (ttl : ℚ)
    (cm0 cm : CacheManager) (ops : List Op)
    (hmk : CacheManager.make size policy ttl = Except.ok cm0)
    (hrun : run cm0 ops = some cm) :
    cm.get_stats.hits + cm.get_stats.misses = countGets ops ∧
    cm.get_stats.hit_rate =
      (if 0 < countGets ops then
        pyRound2 ((cm.get_stats.hits : ℚ) / (countGets ops : ℚ) * 100) else 0) := by
  obtain ⟨-, -, hh0, hm0, -, -⟩ := make_ok_fields hmk
  obtain ⟨-, -, -, hsum, -⟩ := run_spec ops cm0 cm hrun
  rw [hh0, hm0] at hsum
  simp only [Nat.zero_add] at hsum
  constructor
  · exact hsum
  · simp only [CacheManager.get_stats]
    rw [hsum]

/-- Witness for the amended C6 on the trace miss("a"), put("a",7), hit("a"). -/
theorem C6_stats_accounting_witness :
    CacheManager.make 10 "LRU" 0 = Except.ok cmLRU10 ∧
    run cmLRU10 [Op.get 0 "a", Op.put 0 "a" 7, Op.get 1 "a"] = some cmC6 ∧
    (cmC6.get_stats.hits + cmC6.get_stats.misses =
        countGets [Op.get 0 "a", Op.put 0 "a" 7, Op.get 1 "a"] ∧
      cmC6.get_stats.hit_rate =
        (if 0 < countGets [Op.get 0 "a", Op.put 0 "a" 7, Op.get 1 "a"] then
          pyRound2 ((cmC6.get_stats.hits : ℚ) /
            (countGets [Op.get 0 "a", Op.put 0 "a" 7, Op.get 1 "a"] : ℚ) * 100) else 0)) :=
  ⟨rfl, by decide,
    C6_stats_accounting 10 "LRU" 0 cmLRU10 cmC6 [Op.get 0 "a", Op.put 0 "a" 7, Op.get 1 "a"]
      rfl (by decide)⟩

/-- C7: with a positive TTL, a `get` more than TTL after the `put` of a key
finds it absent, removes it, bumps the expiration counter by one and leaves
the eviction counter untouched; with `ttl = 0` an entry is never expired at
any clock reading. -/
theorem C7_ttl_expiration (cm cm1 : CacheManager) (t0 t1 : ℚ) (k : Key) (v : Val) :
    (0 < cm.ttl → cm.put t0 k v = some cm1 → t1 - t0 > cm.ttl →
      ∃ cm2, cm1.get t1 k = some (none, cm2) ∧ dmem cm2.cache k = false ∧
        cm2.stats_expirations = cm1.stats_expirations + 1 ∧
        cm2.stats_evictions = cm1.stats_evictions) ∧
    (cm.ttl = 0 → ∀ t2 : ℚ, cm.is_expired t2 k = false) := by
  constructor
  · intro hT hput helapsed
    obtain ⟨hts, hmemc⟩ := put_self_state hput
    obtain ⟨-, -, httl, -, -, -, -, -⟩ := put_spec hput
    have hexp : cm1.is_expired t1 k = true := by
      unfold CacheManager.is_expired
      rw [if_neg (by rw [httl]; intro e; rw [e] at hT; exact lt_irrefl 0 hT)]
      rw [hts]
      rw [httl]
      exact decide_eq_true helapsed
    obtain ⟨hc, -, -, -, -, -, -, hevi, hexpi⟩ := remove_expired_fields cm1 k
    refine ⟨{ cm1.remove_expired k with stats_misses := (cm1.remove_expired k).stats_misses + 1 }, ?_, ?_, ?_, ?_⟩
    · simp only [CacheManager.get, hmemc, if_true, hexp]
    · rw [dmem_eq_false_iff]
      dsimp only
      rw [hc]
      exact dget?_ddel_self _ _
    · dsimp only
      rw [hexpi]
    · dsimp only
      rw [hevi]
  · intro h0 t2
    simp [CacheManager.is_expired, h0]

/-- Witness for C7: both halves instantiated, with a 1-second TTL cache for the
expiration half and the TTL-0 cache for the never-expires half. -/
theorem C7_ttl_expiration_witness :
    ((0 : ℚ) < cmTTL.ttl ∧ cmTTL.put 0 "k" 5 = some cmTTLk ∧
      (2 : ℚ) - 0 > cmTTL.ttl ∧
      (∃ cm2, cmTTLk.get 2 "k" = some (none, cm2) ∧ dmem cm2.cache "k" = false ∧
        cm2.stats_expirations = cmTTLk.stats_expirations + 1 ∧
        cm2.stats_evictions = cmTTLk.stats_evictions)) ∧
    (cmLRU10.ttl = 0 ∧ cmLRU10.is_expired 99 "k" = false) :=
  ⟨⟨by norm_num [cmTTL, initCM], by decide, by norm_num [cmTTL, initCM],
    (C7_ttl_expiration cmTTL cmTTLk 0 2 "k" 5).1 (by norm_num [cmTTL, initCM]) (by decide)
      (by norm_num [cmTTL, initCM])⟩,
   rfl, (C7_ttl_expiration cmLRU10 cmLRU10 0 0 "k" 0).2 rfl 99⟩

/-- C8: on any reachable state of a constructed cache, a `put` of a live,
non-expired key succeeds, leaves the number of entries unchanged, leaves the
eviction counter unchanged, and rewrites only the value and the insertion
timestamp. -/
theorem C8_update_not_evict (size : Int) (policy : String) (ttl : ℚ)
    (cm0 cm : CacheManager) (ops : List Op) (t : ℚ) (k : Key) (v w : Val)
    (hmk : CacheManager.make size policy ttl = Except.ok cm0)
    (hrun : run cm0 ops = some cm)
    (hmem : dget? cm.cache k = some v) (hexp : cm.is_expired t k = false) :
    ∃ cm', cm.put t k w = some cm' ∧ cm'.cache.length = cm.cache.length ∧
      cm'.stats_evictions = cm.stats_evictions ∧
      dget? cm'.cache k = some w ∧ dget? cm'.timestamps k = some t := by
  obtain ⟨-, -, -, -, hinv⟩ := run_spec ops cm0 cm hrun
  obtain ⟨hnd, hL, -⟩ := hinv (make_reachinv hmk)
  exact put_update_spec w hmem hexp hnd hL

/-- Witness for C8 on an LRU cache holding one entry. -/
theorem C8_update_not_evict_witness :
    CacheManager.make 10 "LRU" 0 = Except.ok cmLRU10 ∧
    run cmLRU10 [Op.put 0 "a" 7] = some cmLRU10a ∧
    dget? cmLRU10a.cache "a" = some 7 ∧ cmLRU10a.is_expired 1 "a" = false ∧
    (∃ cm', cmLRU10a.put 1 "a" 9 = some cm' ∧
      cm'.cache.length = cmLRU10a.cache.length ∧
      cm'.stats_evictions = cmLRU10a.stats_evictions ∧
      dget? cm'.cache "a" = some 9 ∧ dget? cm'.timestamps "a" = some 1) :=
  ⟨rfl, by decide, by decide, by decide,
    C8_update_not_evict 10 "LRU" 0 cmLRU10 cmLRU10a [Op.put 0 "a" 7] 1 "a" 7 9 rfl
      (by decide) (by decide) (by decide)⟩

/-- C9 counterexample: when the Scorer is down, the handler answers 503 but the
cache state HAS changed — the miss counter moved from 0 to 1 — so the claim
that the cache state is unchanged is false as stated. -/
theorem C9_miss_counter_changes :
    (handle_query cmLRU10 0 (some "q") none).1 = QueryResult.unavailable ∧
    (handle_query cmLRU10 0 (some "q") none).2.stats_misses = 1 ∧
    cmLRU10.stats_misses = 0 := by decide

/-- C9 (amended): when a non-empty question misses the cache and the Scorer
call fails, the handler answers dependency-unavailable, the question is not
inserted (it is absent from the entries), and an identical follow-up request
still misses and is again answered dependency-unavailable; the only state
change is the miss counter (plus lazy-expiration bookkeeping inside `get`). -/
theorem C9_scorer_failure_not_cached (cm cm' : CacheManager) (now : ℚ) (q : String)
    (hq : ¬q = "") (hmiss : cm.get now q = some (none, cm')) :
    handle_query cm now (some q) none = (QueryResult.unavailable, cm') ∧
    dmem cm'.cache q = false ∧
    (∃ cm2, handle_query cm' now (some q) none = (QueryResult.unavailable, cm2)) := by
  have hnm := get_miss_not_mem hmiss
  refine ⟨?_, hnm, ?_⟩
  · simp only [handle_query, if_neg hq, hmiss]
  · have hget2 : cm'.get now q =
        some (none, { cm' with stats_misses := cm'.stats_misses + 1 }) := by
      simp only [CacheManager.get, hnm, Bool.false_eq_true, if_false]
    exact ⟨{ cm' with stats_misses := cm'.stats_misses + 1 }, by simp only [handle_query, if_neg hq, hget2]⟩

/-- Witness for the amended C9 on a fresh LRU cache and the question "q". -/
theorem C9_scorer_failure_witness :
    (¬("q" : String) = "") ∧ cmLRU10.get 0 "q" = some (none, cmLRU10m) ∧
    (handle_query cmLRU10 0 (some "q") none = (QueryResult.unavailable, cmLRU10m) ∧
      dmem cmLRU10m.cache "q" = false ∧
      (∃ cm2, handle_query cmLRU10m 0 (some "q") none = (QueryResult.unavailable, cm2))) :=
  ⟨by decide, by decide,
    C9_scorer_failure_not_cached cmLRU10 cmLRU10m 0 "q" (by decide) (by decide)⟩

/-- C10: the policy tag is accepted case-insensitively; any string whose
upper-casing is LRU, FIFO or LFU constructs successfully, and the cache stores
(hence dispatches on) and reports the upper-cased tag. -/
theorem C10_policy_case_insensitive (size : Int) (s : String) (ttl : ℚ)
    (h : pyUpper s = "LRU" ∨ pyUpper s = "FIFO" ∨ pyUpper s = "LFU") :
    ∃ cm, CacheManager.make size s ttl = Except.ok cm ∧ cm.policy = pyUpper s ∧
      cm.get_stats.policy = pyUpper s := by
  simp only [CacheManager.make]
  rw [if_pos h]
  exact ⟨_, rfl, rfl, rfl⟩

/-- Witness for C10 with the mixed-case tag "Fifo". -/
theorem C10_policy_case_insensitive_witness :
    (pyUpper "Fifo" = "LRU" ∨ pyUpper "Fifo" = "FIFO" ∨ pyUpper "Fifo" = "LFU") ∧
    (∃ cm, CacheManager.make 5 "Fifo" 0 = Except.ok cm ∧ cm.policy = pyUpper "Fifo" ∧
      cm.get_stats.policy = pyUpper "Fifo") :=
  ⟨by decide, C10_policy_case_insensitive 5 "Fifo" 0 (by decide)⟩
